import Mathlib

/-! Helion `ServerUnlagged`: the lag-compensation position store.

Embedding of `src/helion/server/ServerUnlagged.hpp` / `ServerUnlagged.cpp`.

* `MAXPLAYERS` comes from the host engine header `doomdef.h`, which is not part of
  this repository; it is a parameter of the development (a positive compile-time
  constant far below `INT_MAX`, so the `int` loop counters of `Clear` never wrap).
* `fixed_t` (host header `m_fixed.h`) is a signed machine integer.  The store never
  does arithmetic on coordinates, it only copies them, so they are kept as `Int`.
* An `int` index into `Players[MAXPLAYERS][MAXPLAYERS]` outside `[0, MAXPLAYERS)` is
  undefined behaviour in C++; every array access is therefore an `Option`, and
  `none` stands for "an out-of-range access was reached".
-/

namespace Helion

/-- The engine type `fixed_t`. -/
abbrev fixed_t := Int

/-- The type `Vec3Fixed = TVector3<fixed_t>` (`helion/util/Math.hpp`): three coordinates,
built component-wise by `Vec3Fixed(x, y, z)`. -/
structure Vec3Fixed where
  X : fixed_t
  Y : fixed_t
  Z : fixed_t
deriving DecidableEq, Repr

/-- The struct `ServerUnlaggedPlayer`, with its default member initialiser
`Vec3Fixed Position{0, 0, 0}`. -/
structure ServerUnlaggedPlayer where
  Position : Vec3Fixed := Vec3Fixed.mk 0 0 0
deriving DecidableEq, Repr

/-- The class `ServerUnlagged`: its only data member is
`ServerUnlaggedPlayer Players[MAXPLAYERS][MAXPLAYERS]`; the major index is the player,
the minor index the target seen from that player. -/
structure ServerUnlagged (MAXPLAYERS : Nat) where
  Players : Mathlib.Vector (Mathlib.Vector ServerUnlaggedPlayer MAXPLAYERS) MAXPLAYERS
deriving DecidableEq

/-- An `int` is a valid index of an array of extent `MAXPLAYERS`. -/
def InRange (MAXPLAYERS : Nat) (i : Int) : Prop := 0 ≤ i ∧ i < (MAXPLAYERS : Int)

instance (MAXPLAYERS : Nat) (i : Int) : Decidable (InRange MAXPLAYERS i) := by
  unfold InRange; infer_instance

/-- Subscripting an array of extent `MAXPLAYERS` with an `int`: the slot, or `none` when
the subscript is out of range. -/
def index? (MAXPLAYERS : Nat) (i : Int) : Option (Fin MAXPLAYERS) :=
  if h : 0 ≤ i ∧ i < (MAXPLAYERS : Int) then some ⟨i.toNat, by omega⟩ else none

/-! Helion `String` (`src/helion/util/string/String.hpp` / `String.cpp`): a wrapper
around one `std::string`.

* A `char` is kept as a Lean `Char`; every byte value is one, and the methods below only
  compare characters for equality.
* `length()` is `int32_t(str.length())`: the narrowing is kept, as the two's-complement
  wrap-around every mainstream compiler performs (and C++20 requires).
* A method that can reach undefined behaviour or let `std::out_of_range` escape returns an
  `Option`, with `none` for "does not return normally".
-/

/-- The C++ type `char`. -/
abbrev char := Char

/-- The conversion `int32_t(x)` of an integer value. -/
def toInt32 (x : Int) : Int := (x + 2 ^ 31) % 2 ^ 32 - 2 ^ 31

/-- The conversion `size_t(x)` of an integer value (64-bit `size_t`). -/
def toSizeT (x : Int) : Nat := (x % 2 ^ 64).toNat

/-- The value is representable in `int32_t`, so signed arithmetic producing it is defined. -/
def IsInt32 (x : Int) : Prop := -(2 ^ 31) ≤ x ∧ x < 2 ^ 31

instance (x : Int) : Decidable (IsInt32 x) := by
  unfold IsInt32; infer_instance

/-- The library call `std::string::substr(pos, count)`: throws `std::out_of_range` when
`pos > size()`, otherwise the characters `[pos, min(pos + count, size()))`. -/
def substr (str : List char) (pos count : Nat) : Option (List char) :=
  if pos > str.length then none else some ((str.drop pos).take count)

/-- The library call `std::equal(first1, last1, first2)` on the sequence `[first1, last1)`
and the sequence starting at `first2`: the elements are compared pairwise; reading the second
sequence past its end is undefined. -/
def stdEqual : List char → List char → Option Bool
  | [], _ => some true
  | _ :: _, [] => none
  | a :: l1, b :: l2 => if a = b then stdEqual l1 l2 else some false

/-- The library call `std::remove(first, last, value)`: the kept elements are moved to the
front in their order, the returned iterator (here an offset) is the end of the kept
elements; what lies behind it is left over from the original buffer. -/
def stdRemove (buf : List char) (value : char) : List char × Nat :=
  let kept := buf.filter (fun ch => !(ch == value))
  (kept ++ buf.drop kept.length, kept.length)

/-- The class `String`: its only data member is `std::string str`. -/
structure String where
  str : List char
deriving DecidableEq

namespace String

/-- The constant `String::NO_INDEX`. -/
def NO_INDEX : Int := -1

/-- The method `String::length`: `int32_t(str.length())`. -/
def length (s : String) : Int := toInt32 (s.str.length : Int)

/-- The expression `getChars()[i]`: `c_str()` points at the characters followed by the
terminating `'\0'`; any other offset is outside the buffer. -/
def charsAt (s : String) (i : Int) : Option char :=
  if 0 ≤ i then (s.str ++ [Char.ofNat 0])[i.toNat]? else none

/-- The operator `String::operator+(const String&)`: `String(this->str + str.str)`. -/
def add (s t : String) : String := ⟨s.str ++ t.str⟩

instance : Add String := ⟨add⟩

/-- The loop of `String::indexOf`, `for (...; i < length(); i++) if (chars[i] == c) return i;`
followed by `return NO_INDEX;`, entered at `i` with at most `n` iterations to go. -/
def indexOfLoop (s : String) (c : char) : Nat → Int → Option Int
  | 0, _ => some NO_INDEX
  | n + 1, i =>
    if i < s.length then
      match s.charsAt i with
      | none => none
      | some ch => if ch = c then some i else indexOfLoop s c n (i + 1)
    else some NO_INDEX

/-- The method `String::indexOf`. -/
def indexOf (s : String) (c : char) : Option Int :=
  indexOfLoop s c s.length.toNat 0

/-- The loop of `String::lastIndexOf`, `for (...; i >= 0; i--) if (chars[i] == c) return i;`
followed by `return NO_INDEX;`, entered at `i` with at most `n` iterations to go. -/
def lastIndexOfLoop (s : String) (c : char) : Nat → Int → Option Int
  | 0, _ => some NO_INDEX
  | n + 1, i =>
    if 0 ≤ i then
      match s.charsAt i with
      | none => none
      | some ch => if ch = c then some i else lastIndexOfLoop s c n (i - 1)
    else some NO_INDEX

/-- The method `String::lastIndexOf`; the initial `length() - 1` is signed arithmetic. -/
def lastIndexOf (s : String) (c : char) : Option Int :=
  if IsInt32 (s.length - 1) then lastIndexOfLoop s c s.length.toNat (s.length - 1) else none

/-- The method `String::substring`:
`startIndex < endIndex ? String(str.substr(size_t(startIndex), size_t(endIndex - startIndex))) : ""`. -/
def substring (s : String) (startIndex endIndex : Int) : Option String :=
  if startIndex < endIndex then
    if IsInt32 (endIndex - startIndex) then
      (substr s.str (toSizeT startIndex) (toSizeT (endIndex - startIndex))).map String.mk
    else none
  else some (String.mk [])

/-- The method `String::substringFrom`: `substring(index, length())`. -/
def substringFrom (s : String) (index : Int) : Option String :=
  s.substring index s.length

/-- The method `String::substringTo`: `substring(0, index)`. -/
def substringTo (s : String) (index : Int) : Option String :=
  s.substring 0 index

/-- The method `String::endsWith`: `if (ending.length() > length()) return false;` then
`std::equal(ending.str.rbegin(), ending.str.rend(), str.rbegin())`. -/
def endsWith (s ending : String) : Option Bool :=
  if ending.length > s.length then some false
  else stdEqual ending.str.reverse s.str.reverse

/-- The method `String::remove`, a `const` method: `std::string s = str;`,
`auto it = std::remove(s.begin(), s.end(), target);`, `s.erase(it, s.end());`, `return s;`.
The pair is the receiver after the call and the returned string. -/
def remove (self : String) (target : char) : String × String :=
  let s := self.str
  let r := stdRemove s target
  let s := r.1.take r.2
  (self, String.mk s)

end String

namespace ServerUnlagged

variable {MAXPLAYERS : Nat}

/-- The cell `Players[i][j].Position` for slots already known to be in range. -/
def cell (s : ServerUnlagged MAXPLAYERS) (i j : Fin MAXPLAYERS) : Vec3Fixed :=
  ((s.Players.get i).get j).Position

/-- The store with `Players[i][j].Position` replaced by `v`, for slots in range. -/
def write (s : ServerUnlagged MAXPLAYERS) (i j : Fin MAXPLAYERS) (v : Vec3Fixed) :
    ServerUnlagged MAXPLAYERS :=
  ⟨s.Players.set i ((s.Players.get i).set j (ServerUnlaggedPlayer.mk v))⟩

/-- Read access, the expression `Players[player][target].Position` with `int` subscripts. -/
def read (s : ServerUnlagged MAXPLAYERS) (player target : Int) : Option Vec3Fixed :=
  (index? MAXPLAYERS player).bind fun i =>
    (index? MAXPLAYERS target).bind fun j => some (s.cell i j)

/-- The statement `Players[player][target].Position = v;` with `int` subscripts. -/
def assign (s : ServerUnlagged MAXPLAYERS) (player target : Int) (v : Vec3Fixed) :
    Option (ServerUnlagged MAXPLAYERS) :=
  (index? MAXPLAYERS player).bind fun i =>
    (index? MAXPLAYERS target).bind fun j => some (s.write i j v)

/-- The method `ServerUnlagged::Clear`: two nested counted loops
`for (int player = 0; player < MAXPLAYERS; player++)`,
`for (int target = 0; target < MAXPLAYERS; target++)` around
`Players[player][target].Position = Vec3Fixed(0, 0, 0);`. -/
def Clear (s : ServerUnlagged MAXPLAYERS) : Option (ServerUnlagged MAXPLAYERS) :=
  (List.range MAXPLAYERS).foldlM (fun (s : ServerUnlagged MAXPLAYERS) (player : Nat) =>
    (List.range MAXPLAYERS).foldlM (fun (s : ServerUnlagged MAXPLAYERS) (target : Nat) =>
      s.assign (player : Int) (target : Int) (Vec3Fixed.mk 0 0 0)) s) s

/-- The method `ServerUnlagged::SetSelf`:
`Players[playerIndex][playerIndex].Position = Vec3Fixed(x, y, z);`. -/
def SetSelf (s : ServerUnlagged MAXPLAYERS) (playerIndex : Int) (x y z : fixed_t) :
    Option (ServerUnlagged MAXPLAYERS) :=
  s.assign playerIndex playerIndex (Vec3Fixed.mk x y z)

/-- The method `ServerUnlagged::Set`:
`Players[playerIndex][targetPlayerIndex].Position = Vec3Fixed(x, y, z);`. -/
def Set (s : ServerUnlagged MAXPLAYERS) (playerIndex targetPlayerIndex : Int)
    (x y z : fixed_t) : Option (ServerUnlagged MAXPLAYERS) :=
  s.assign playerIndex targetPlayerIndex (Vec3Fixed.mk x y z)

/-- The members as they stand when the constructor body starts: every
`ServerUnlaggedPlayer` default-initialised, so `Position{0, 0, 0}`. -/
def defaultInit (MAXPLAYERS : Nat) : ServerUnlagged MAXPLAYERS :=
  ⟨Mathlib.Vector.replicate MAXPLAYERS (Mathlib.Vector.replicate MAXPLAYERS {})⟩

/-- The constructor `ServerUnlagged::ServerUnlagged()`, whose body is `Clear();`. -/
def ctor (MAXPLAYERS : Nat) : Option (ServerUnlagged MAXPLAYERS) :=
  (defaultInit MAXPLAYERS).Clear

/-! ## Array subscripts -/

theorem index?_of_inRange {i : Int} (h : InRange MAXPLAYERS i) :
    ∃ k : Fin MAXPLAYERS, index? MAXPLAYERS i = some k ∧ (k.val : Int) = i := by
  obtain ⟨h0, h1⟩ := h
  refine ⟨⟨i.toNat, by omega⟩, ?_, ?_⟩
  · simp [index?, h0, h1]
  · simp [Int.toNat_of_nonneg h0]

theorem index?_natCast (k : Fin MAXPLAYERS) : index? MAXPLAYERS (k.val : Int) = some k := by
  have h : (0 : Int) ≤ k.val ∧ (k.val : Int) < MAXPLAYERS := ⟨by omega, by exact_mod_cast k.isLt⟩
  simp [index?, h]

theorem index?_eq_some {i : Int} {k : Fin MAXPLAYERS} (h : index? MAXPLAYERS i = some k) :
    (k.val : Int) = i := by
  unfold index? at h
  split at h
  · next hr =>
    cases h
    simp [Int.toNat_of_nonneg hr.1]
  · cases h

/-! ## Single cells -/

theorem cell_write (s : ServerUnlagged MAXPLAYERS) (i j a b : Fin MAXPLAYERS) (v : Vec3Fixed) :
    (s.write i j v).cell a b = if a = i ∧ b = j then v else s.cell a b := by
  unfold cell write
  by_cases ha : a = i
  · subst ha
    by_cases hb : b = j
    · subst hb; simp
    · have hb2 : j ≠ b := fun h => hb h.symm
      simp [hb, Mathlib.Vector.get_set_of_ne hb2]
  · have ha2 : i ≠ a := fun h => ha h.symm
    simp [ha, Mathlib.Vector.get_set_of_ne ha2]

theorem ext_cell {s t : ServerUnlagged MAXPLAYERS}
    (h : ∀ a b : Fin MAXPLAYERS, s.cell a b = t.cell a b) : s = t := by
  cases s with
  | mk ps =>
    cases t with
    | mk pt =>
      congr 1
      apply Mathlib.Vector.ext
      intro a
      apply Mathlib.Vector.ext
      intro b
      have hab := h a b
      unfold cell at hab
      cases hp : (ps.get a).get b
      cases hq : (pt.get a).get b
      simp only [hp, hq] at hab
      simp [hab]

theorem cell_defaultInit (a b : Fin MAXPLAYERS) :
    (defaultInit MAXPLAYERS).cell a b = Vec3Fixed.mk 0 0 0 := by
  simp [cell, defaultInit]

theorem assign_natCast (s : ServerUnlagged MAXPLAYERS) (i j : Fin MAXPLAYERS) (v : Vec3Fixed) :
    s.assign (i.val : Int) (j.val : Int) v = some (s.write i j v) := by
  simp [assign, index?_natCast]

theorem read_natCast (s : ServerUnlagged MAXPLAYERS) (i j : Fin MAXPLAYERS) :
    s.read (i.val : Int) (j.val : Int) = some (s.cell i j) := by
  simp [read, index?_natCast]

/-! ## The loops of `Clear` -/

/-- The inner loop of `Clear`, run for the targets below `t` of row `p`. -/
theorem clear_inner (p : Fin MAXPLAYERS) (t : Nat) (ht : t ≤ MAXPLAYERS)
    (s : ServerUnlagged MAXPLAYERS) :
    ∃ s', (List.range t).foldlM (fun s target =>
        s.assign (p.val : Int) (target : Int) (Vec3Fixed.mk 0 0 0)) s = some s' ∧
      ∀ a b : Fin MAXPLAYERS,
        s'.cell a b = if a = p ∧ b.val < t then Vec3Fixed.mk 0 0 0 else s.cell a b := by
  induction t with
  | zero => exact ⟨s, by simp, by simp⟩
  | succ t ih =>
    obtain ⟨s1, h1, c1⟩ := ih (by omega)
    have hstep := assign_natCast s1 p ⟨t, by omega⟩ (Vec3Fixed.mk 0 0 0)
    refine ⟨s1.write p ⟨t, by omega⟩ (Vec3Fixed.mk 0 0 0), ?_, ?_⟩
    · rw [List.range_succ, List.foldlM_append, h1]
      simpa using hstep
    · intro a b
      rw [cell_write, c1]
      by_cases hap : a = p
      · by_cases hbt : b.val = t
        · have hb : b = ⟨t, by omega⟩ := Fin.ext hbt
          simp [hap, hb]
        · have hb : b ≠ ⟨t, by omega⟩ := fun h => hbt (by rw [h])
          have hiff : b.val < t + 1 ↔ b.val < t := by omega
          simp [hap, hb, hiff]
      · simp [hap]

/-- The outer loop of `Clear`, run for the players below `p`. -/
theorem clear_outer (p : Nat) (hp : p ≤ MAXPLAYERS) (s : ServerUnlagged MAXPLAYERS) :
    ∃ s', (List.range p).foldlM (fun s player =>
        (List.range MAXPLAYERS).foldlM (fun s target =>
          s.assign (player : Int) (target : Int) (Vec3Fixed.mk 0 0 0)) s) s = some s' ∧
      ∀ a b : Fin MAXPLAYERS,
        s'.cell a b = if a.val < p then Vec3Fixed.mk 0 0 0 else s.cell a b := by
  induction p with
  | zero => exact ⟨s, by simp, by simp⟩
  | succ p ih =>
    obtain ⟨s1, h1, c1⟩ := ih (by omega)
    obtain ⟨s2, h2, c2⟩ := clear_inner ⟨p, by omega⟩ MAXPLAYERS (Nat.le_refl _) s1
    refine ⟨s2, ?_, ?_⟩
    · rw [List.range_succ, List.foldlM_append, h1]
      simpa using h2
    · intro a b
      rw [c2, c1]
      by_cases hap : a.val = p
      · have ha : a = ⟨p, by omega⟩ := Fin.ext hap
        simp [ha]
      · have ha : a ≠ ⟨p, by omega⟩ := fun h => hap (by rw [h])
        have hiff : a.val < p + 1 ↔ a.val < p := by omega
        simp [ha, hiff]

/-- The method `Clear` runs to completion on every store and yields the all-zero store. -/
theorem Clear_eq (s : ServerUnlagged MAXPLAYERS) : s.Clear = some (defaultInit MAXPLAYERS) := by
  obtain ⟨s', h, c⟩ := clear_outer MAXPLAYERS (Nat.le_refl _) s
  have hs : s' = defaultInit MAXPLAYERS := by
    apply ext_cell
    intro a b
    rw [c, cell_defaultInit]
    simp
  unfold Clear
  rw [h, hs]

/-- Every `assign` with subscripts in range succeeds and is the write of that one cell. -/
theorem assign_of_inRange (s : ServerUnlagged MAXPLAYERS) {i j : Int} (v : Vec3Fixed)
    (hi : InRange MAXPLAYERS i) (hj : InRange MAXPLAYERS j) :
    ∃ r c : Fin MAXPLAYERS, (r.val : Int) = i ∧ (c.val : Int) = j ∧
      s.assign i j v = some (s.write r c v) := by
  obtain ⟨r, hr, hri⟩ := index?_of_inRange hi
  obtain ⟨c, hc, hcj⟩ := index?_of_inRange hj
  exact ⟨r, c, hri, hcj, by simp [assign, hr, hc]⟩

/-- Reading through `int` subscripts after a write of cell `(r, c)`. -/
theorem read_write (s : ServerUnlagged MAXPLAYERS) (r c : Fin MAXPLAYERS) (v : Vec3Fixed)
    (a b : Int) :
    (s.write r c v).read a b =
      if a = (r.val : Int) ∧ b = (c.val : Int) then some v else s.read a b := by
  unfold read
  cases ha : index? MAXPLAYERS a with
  | none =>
    have hne : a ≠ (r.val : Int) := by
      intro h; rw [h, index?_natCast] at ha; cases ha
    simp [hne]
  | some a' =>
    cases hb : index? MAXPLAYERS b with
    | none =>
      have hne : b ≠ (c.val : Int) := by
        intro h; rw [h, index?_natCast] at hb; cases hb
      simp [hne]
    | some b' =>
      have ea := index?_eq_some ha
      have eb := index?_eq_some hb
      simp only [Option.some_bind, cell_write]
      have h1 : a' = r ↔ a = (r.val : Int) := by
        constructor
        · intro h; rw [← ea, h]
        · intro h; apply Fin.ext; omega
      have h2 : b' = c ↔ b = (c.val : Int) := by
        constructor
        · intro h; rw [← eb, h]
        · intro h; apply Fin.ext; omega
      simp only [h1, h2]
      split_ifs <;> rfl

/-- The result of `Set` (and of `SetSelf`, through `p = i = j`) for subscripts in range:
the call returns, the addressed cell reads the new value, every other read is unchanged. -/
theorem assign_spec (s : ServerUnlagged MAXPLAYERS) {i j : Int} (v : Vec3Fixed)
    (hi : InRange MAXPLAYERS i) (hj : InRange MAXPLAYERS j) :
    ∃ s', s.assign i j v = some s' ∧ s'.read i j = some v ∧
      ∀ a b : Int, (a ≠ i ∨ b ≠ j) → s'.read a b = s.read a b := by
  obtain ⟨r, c, hr, hc, h⟩ := assign_of_inRange s v hi hj
  refine ⟨s.write r c v, h, ?_, ?_⟩
  · rw [read_write]; simp [hr, hc]
  · intro a b hab
    rw [read_write, hr, hc]
    have : ¬ (a = i ∧ b = j) := by
      rintro ⟨h1, h2⟩
      rcases hab with h | h
      · exact h h1
      · exact h h2
    simp [this]

theorem read_defaultInit {i j : Int} (hi : InRange MAXPLAYERS i) (hj : InRange MAXPLAYERS j) :
    (defaultInit MAXPLAYERS).read i j = some (Vec3Fixed.mk 0 0 0) := by
  obtain ⟨r, hr, -⟩ := index?_of_inRange hi
  obtain ⟨c, hc, -⟩ := index?_of_inRange hj
  simp [read, hr, hc, cell_defaultInit]

theorem assign_out_of_range (s : ServerUnlagged MAXPLAYERS) (i j : Int) (v : Vec3Fixed)
    (h : ¬ InRange MAXPLAYERS i ∨ ¬ InRange MAXPLAYERS j) : s.assign i j v = none := by
  unfold InRange at h
  unfold assign index?
  rcases h with h | h
  · simp [h]
  · split
    · simp [h]
    · rfl

theorem write_write (s : ServerUnlagged MAXPLAYERS) (r c : Fin MAXPLAYERS) (v w : Vec3Fixed) :
    (s.write r c v).write r c w = s.write r c w := by
  apply ext_cell
  intro a b
  simp only [cell_write]
  split_ifs <;> rfl

/-! ## The claims -/

/-- C1 (reset): from every prior store, freshly built or arbitrarily populated, `Clear()`
returns, and afterwards the cell `Players[i][j].Position` is `(0, 0, 0)` for all player
indices `i`, `j` in `[0, MAXPLAYERS)`. -/
theorem Clear_zeroes_every_cell (s : ServerUnlagged MAXPLAYERS) (i j : Int)
    (hi : InRange MAXPLAYERS i) (hj : InRange MAXPLAYERS j) :
    ∃ s', s.Clear = some s' ∧ s'.read i j = some (Vec3Fixed.mk 0 0 0) :=
  ⟨defaultInit MAXPLAYERS, Clear_eq s, read_defaultInit hi hj⟩

theorem Clear_zeroes_every_cell_witness :
    InRange 4 1 ∧ InRange 4 2 ∧
      ∃ s', (((defaultInit 4).write 1 2 (Vec3Fixed.mk 5 6 7)).write 3 0
          (Vec3Fixed.mk 1 1 1)).Clear = some s' ∧
        s'.read 1 2 = some (Vec3Fixed.mk 0 0 0) :=
  ⟨by decide, by decide, Clear_zeroes_every_cell _ 1 2 (by decide) (by decide)⟩

/-- C2 (a write touches exactly one cell): for every store and all indices `i`, `j` in
`[0, MAXPLAYERS)`, `Set(i, j, x, y, z)` returns, afterwards cell `(i, j)` holds `(x, y, z)`,
and every cell `(a, b)` other than `(i, j)` holds the value it held before the call. -/
theorem Set_touches_exactly_one_cell (s : ServerUnlagged MAXPLAYERS) (i j : Int)
    (x y z : fixed_t) (hi : InRange MAXPLAYERS i) (hj : InRange MAXPLAYERS j) :
    ∃ s', s.Set i j x y z = some s' ∧ s'.read i j = some (Vec3Fixed.mk x y z) ∧
      ∀ a b : Int, (a ≠ i ∨ b ≠ j) → s'.read a b = s.read a b :=
  assign_spec s (Vec3Fixed.mk x y z) hi hj

theorem Set_touches_exactly_one_cell_witness :
    InRange 4 1 ∧ InRange 4 2 ∧
      ∃ s', ((defaultInit 4).write 0 3 (Vec3Fixed.mk 9 9 9)).Set 1 2 5 6 7 = some s' ∧
        s'.read 1 2 = some (Vec3Fixed.mk 5 6 7) ∧
        ∀ a b : Int, (a ≠ 1 ∨ b ≠ 2) →
          s'.read a b = ((defaultInit 4).write 0 3 (Vec3Fixed.mk 9 9 9)).read a b :=
  ⟨by decide, by decide, Set_touches_exactly_one_cell _ 1 2 5 6 7 (by decide) (by decide)⟩

/-- C3, as stated, fails: with `i = 0`, `j = 1`, `k = 1` (so `i ≠ k`), the call
`Set(0, 1, 7, 8, 9)` on the all-zero store changes cell `(0, 1)`, which lies in column
`k = 1`. -/
theorem Set_column_isolation_counterexample :
    InRange 4 0 ∧ InRange 4 1 ∧ (0 : Int) ≠ 1 ∧
      (defaultInit 4).read 0 1 = some (Vec3Fixed.mk 0 0 0) ∧
      ((defaultInit 4).Set 0 1 7 8 9).bind (fun s' => s'.read 0 1) =
        some (Vec3Fixed.mk 7 8 9) := by
  decide

/-- C3, amended (write isolation): for all indices `i`, `j`, `k` in `[0, MAXPLAYERS)` with
`i ≠ k`, `Set(i, j, x, y, z)` returns and changes no cell of row `k`, and in column `k` it
changes no cell other than the written cell `(i, j)` itself (which lies in column `k`
exactly when `j = k`). -/
theorem Set_write_isolation (s : ServerUnlagged MAXPLAYERS) (i j k : Int) (x y z : fixed_t)
    (hi : InRange MAXPLAYERS i) (hj : InRange MAXPLAYERS j) (_hk : InRange MAXPLAYERS k)
    (hik : i ≠ k) :
    ∃ s', s.Set i j x y z = some s' ∧
      (∀ b : Int, s'.read k b = s.read k b) ∧
      (∀ a : Int, (a ≠ i ∨ j ≠ k) → s'.read a k = s.read a k) := by
  obtain ⟨s', h, -, hframe⟩ := assign_spec s (Vec3Fixed.mk x y z) hi hj
  refine ⟨s', h, ?_, ?_⟩
  · intro b
    exact hframe k b (Or.inl (fun e => hik e.symm))
  · intro a ha
    apply hframe a k
    rcases ha with ha | ha
    · exact Or.inl ha
    · exact Or.inr (fun e => ha e.symm)

theorem Set_write_isolation_witness :
    InRange 4 0 ∧ InRange 4 1 ∧ InRange 4 1 ∧ (0 : Int) ≠ 1 ∧
      ∃ s', (defaultInit 4).Set 0 1 7 8 9 = some s' ∧
        (∀ b : Int, s'.read 1 b = (defaultInit 4).read 1 b) ∧
        (∀ a : Int, (a ≠ 0 ∨ (1 : Int) ≠ 1) → s'.read a 1 = (defaultInit 4).read a 1) :=
  ⟨by decide, by decide, by decide, by decide,
    Set_write_isolation _ 0 1 1 7 8 9 (by decide) (by decide) (by decide) (by decide)⟩

/-- C4 (`SetSelf` replaces the diagonal cell only): for every index `p` in
`[0, MAXPLAYERS)`, on every store `SetSelf(p, x, y, z)` returns, cell `(p, p)` then holds
`(x, y, z)`, no other cell is touched, in particular no off-diagonal cell; and applied to a
freshly constructed store it leaves every cell other than `(p, p)` equal to `(0, 0, 0)`. -/
theorem SetSelf_replaces_diagonal_only (p : Int) (x y z : fixed_t)
    (hp : InRange MAXPLAYERS p) :
    (∀ s : ServerUnlagged MAXPLAYERS, ∃ s', s.SetSelf p x y z = some s' ∧
      s'.read p p = some (Vec3Fixed.mk x y z) ∧
      (∀ a b : Int, (a ≠ p ∨ b ≠ p) → s'.read a b = s.read a b) ∧
      (∀ a b : Int, a ≠ b → s'.read a b = s.read a b)) ∧
    (∃ s0 s', ctor MAXPLAYERS = some s0 ∧ s0.SetSelf p x y z = some s' ∧
      s'.read p p = some (Vec3Fixed.mk x y z) ∧
      ∀ a b : Int, InRange MAXPLAYERS a → InRange MAXPLAYERS b → (a ≠ p ∨ b ≠ p) →
        s'.read a b = some (Vec3Fixed.mk 0 0 0)) := by
  constructor
  · intro s
    obtain ⟨s', h, hv, hframe⟩ := assign_spec s (Vec3Fixed.mk x y z) hp hp
    refine ⟨s', h, hv, hframe, ?_⟩
    intro a b hab
    apply hframe
    by_cases ha : a = p
    · exact Or.inr (fun hb => hab (ha.trans hb.symm))
    · exact Or.inl ha
  · obtain ⟨s', h, hv, hframe⟩ :=
      assign_spec (defaultInit MAXPLAYERS) (Vec3Fixed.mk x y z) hp hp
    refine ⟨defaultInit MAXPLAYERS, s', Clear_eq _, h, hv, ?_⟩
    intro a b ha hb hab
    rw [hframe a b hab, read_defaultInit ha hb]

theorem SetSelf_replaces_diagonal_only_witness :
    InRange 4 1 ∧
      ∃ s0 s', ctor 4 = some s0 ∧ s0.SetSelf 1 10 20 30 = some s' ∧
        s'.read 1 1 = some (Vec3Fixed.mk 10 20 30) ∧
        ∀ a b : Int, InRange 4 a → InRange 4 b → (a ≠ 1 ∨ b ≠ 1) →
          s'.read a b = some (Vec3Fixed.mk 0 0 0) :=
  ⟨by decide, (SetSelf_replaces_diagonal_only 1 10 20 30 (by decide)).2⟩

/-- C5 (diagonal equivalence): for every store, every index `p` in `[0, MAXPLAYERS)` and
all coordinates, `SetSelf(p, x, y, z)` and `Set(p, p, x, y, z)` both return and produce the
same store. -/
theorem SetSelf_eq_Set_diagonal (s : ServerUnlagged MAXPLAYERS) (p : Int) (x y z : fixed_t)
    (hp : InRange MAXPLAYERS p) :
    ∃ s', s.SetSelf p x y z = some s' ∧ s.Set p p x y z = some s' := by
  obtain ⟨s', h, -, -⟩ := assign_spec s (Vec3Fixed.mk x y z) hp hp
  exact ⟨s', h, h⟩

theorem SetSelf_eq_Set_diagonal_witness :
    InRange 4 3 ∧
      ∃ s', ((defaultInit 4).write 3 3 (Vec3Fixed.mk 1 2 3)).SetSelf 3 4 5 6 = some s' ∧
        ((defaultInit 4).write 3 3 (Vec3Fixed.mk 1 2 3)).Set 3 3 4 5 6 = some s' :=
  ⟨by decide, SetSelf_eq_Set_diagonal _ 3 4 5 6 (by decide)⟩

/-- C6 (last write wins): for every store, indices `i`, `j` in `[0, MAXPLAYERS)` and
coordinate triples `v1`, `v2`, the store after `Set(i, j, v1)` followed by `Set(i, j, v2)`
is the store after `Set(i, j, v2)` alone, and its cell `(i, j)` reads `v2`. -/
theorem Set_last_write_wins (s : ServerUnlagged MAXPLAYERS) (i j : Int)
    (x1 y1 z1 x2 y2 z2 : fixed_t)
    (hi : InRange MAXPLAYERS i) (hj : InRange MAXPLAYERS j) :
    ∃ s1 s2, s.Set i j x1 y1 z1 = some s1 ∧ s1.Set i j x2 y2 z2 = some s2 ∧
      s.Set i j x2 y2 z2 = some s2 ∧ s2.read i j = some (Vec3Fixed.mk x2 y2 z2) := by
  obtain ⟨r, hr, hri⟩ := index?_of_inRange hi
  obtain ⟨c, hc, hcj⟩ := index?_of_inRange hj
  refine ⟨s.write r c (Vec3Fixed.mk x1 y1 z1), s.write r c (Vec3Fixed.mk x2 y2 z2), ?_, ?_, ?_, ?_⟩
  · simp [Set, assign, hr, hc]
  · simp [Set, assign, hr, hc, write_write]
  · simp [Set, assign, hr, hc]
  · rw [read_write]; simp [hri, hcj]

theorem Set_last_write_wins_witness :
    InRange 4 1 ∧ InRange 4 2 ∧
      ∃ s1 s2, (defaultInit 4).Set 1 2 5 5 5 = some s1 ∧ s1.Set 1 2 7 7 7 = some s2 ∧
        (defaultInit 4).Set 1 2 7 7 7 = some s2 ∧ s2.read 1 2 = some (Vec3Fixed.mk 7 7 7) :=
  ⟨by decide, by decide, Set_last_write_wins _ 1 2 5 5 5 7 7 7 (by decide) (by decide)⟩

/-- C7 (construction): the constructor returns a store in which every cell `(i, j)`,
`i`, `j` in `[0, MAXPLAYERS)`, is `(0, 0, 0)`, and that store is the result of `Clear()`
on any store whatever. -/
theorem ctor_all_zero_and_eq_Clear (MAXPLAYERS : Nat) :
    ∃ s0, ctor MAXPLAYERS = some s0 ∧
      (∀ i j : Fin MAXPLAYERS, s0.read (i.val : Int) (j.val : Int) = some (Vec3Fixed.mk 0 0 0)) ∧
      ∀ s : ServerUnlagged MAXPLAYERS, s.Clear = some s0 := by
  refine ⟨defaultInit MAXPLAYERS, Clear_eq _, ?_, fun s => Clear_eq s⟩
  intro i j
  rw [read_natCast, cell_defaultInit]

/-- C8 (perspectives are independent): for every store and indices `i ≠ j` in
`[0, MAXPLAYERS)`, after `Set(i, j, a)` and then `Set(j, i, b)` cell `(i, j)` holds `a` and
cell `(j, i)` holds `b`, so the two cells differ whenever `a ≠ b`. -/
theorem Set_perspectives_independent (s : ServerUnlagged MAXPLAYERS) (i j : Int)
    (ax ay az bx b_y bz : fixed_t)
    (hi : InRange MAXPLAYERS i) (hj : InRange MAXPLAYERS j) (hij : i ≠ j) :
    ∃ s1 s2, s.Set i j ax ay az = some s1 ∧ s1.Set j i bx b_y bz = some s2 ∧
      s2.read i j = some (Vec3Fixed.mk ax ay az) ∧
      s2.read j i = some (Vec3Fixed.mk bx b_y bz) ∧
      (Vec3Fixed.mk ax ay az ≠ Vec3Fixed.mk bx b_y bz → s2.read i j ≠ s2.read j i) := by
  obtain ⟨s1, h1, v1, -⟩ := assign_spec s (Vec3Fixed.mk ax ay az) hi hj
  obtain ⟨s2, h2, v2, f2⟩ := assign_spec s1 (Vec3Fixed.mk bx b_y bz) hj hi
  have e1 : s2.read i j = some (Vec3Fixed.mk ax ay az) := by
    rw [f2 i j (Or.inl hij), v1]
  refine ⟨s1, s2, h1, h2, e1, v2, ?_⟩
  intro hne heq
  rw [e1, v2] at heq
  exact hne (Option.some.inj heq)

theorem Set_perspectives_independent_witness :
    InRange 4 0 ∧ InRange 4 3 ∧ (0 : Int) ≠ 3 ∧
      ∃ s1 s2, (defaultInit 4).Set 0 3 1 1 1 = some s1 ∧ s1.Set 3 0 2 2 2 = some s2 ∧
        s2.read 0 3 = some (Vec3Fixed.mk 1 1 1) ∧
        s2.read 3 0 = some (Vec3Fixed.mk 2 2 2) ∧
        (Vec3Fixed.mk 1 1 1 ≠ Vec3Fixed.mk 2 2 2 → s2.read 0 3 ≠ s2.read 3 0) :=
  ⟨by decide, by decide, by decide,
    Set_perspectives_independent _ 0 3 1 1 1 2 2 2 (by decide) (by decide) (by decide)⟩

/-- C9 (no out-of-range access): with observer and observed indices in
`[0, MAXPLAYERS)`, `Set`, `SetSelf` and `Clear` return, that is, no array access of theirs is
out of range; and for `MAXPLAYERS > 0` each boundary pair `(0, 0)`, `(0, N-1)`, `(N-1, 0)`,
`(N-1, N-1)` is accepted by `Set`, which then changes the addressed cell only and leaves
every other cell, the adjacent ones included, as it was. -/
theorem valid_indices_never_fail (s : ServerUnlagged MAXPLAYERS) (x y z : fixed_t) :
    (∀ i j : Int, InRange MAXPLAYERS i → InRange MAXPLAYERS j →
      ∃ s', s.Set i j x y z = some s') ∧
    (∀ p : Int, InRange MAXPLAYERS p → ∃ s', s.SetSelf p x y z = some s') ∧
    (∃ s', s.Clear = some s') ∧
    (0 < MAXPLAYERS → ∀ i j : Int,
      (i = 0 ∨ i = (MAXPLAYERS : Int) - 1) → (j = 0 ∨ j = (MAXPLAYERS : Int) - 1) →
      ∃ s', s.Set i j x y z = some s' ∧ s'.read i j = some (Vec3Fixed.mk x y z) ∧
        ∀ a b : Int, (a ≠ i ∨ b ≠ j) → s'.read a b = s.read a b) := by
  refine ⟨?_, ?_, ⟨_, Clear_eq s⟩, ?_⟩
  · intro i j hi hj
    obtain ⟨s', h, -, -⟩ := assign_spec s (Vec3Fixed.mk x y z) hi hj
    exact ⟨s', h⟩
  · intro p hp
    obtain ⟨s', h, -, -⟩ := assign_spec s (Vec3Fixed.mk x y z) hp hp
    exact ⟨s', h⟩
  · intro hN i j hi hj
    have ri : InRange MAXPLAYERS i := by
      unfold InRange; rcases hi with h | h <;> omega
    have rj : InRange MAXPLAYERS j := by
      unfold InRange; rcases hj with h | h <;> omega
    exact assign_spec s (Vec3Fixed.mk x y z) ri rj

theorem valid_indices_never_fail_witness :
    (0 < 4) ∧
      ∃ s', ((defaultInit 4).write 0 2 (Vec3Fixed.mk 8 8 8)).Set 0 3 1 2 3 = some s' ∧
        s'.read 0 3 = some (Vec3Fixed.mk 1 2 3) ∧
        ∀ a b : Int, (a ≠ 0 ∨ b ≠ 3) →
          s'.read a b = ((defaultInit 4).write 0 2 (Vec3Fixed.mk 8 8 8)).read a b :=
  ⟨by decide,
    (valid_indices_never_fail ((defaultInit 4).write 0 2 (Vec3Fixed.mk 8 8 8)) 1 2 3).2.2.2
      (by decide) 0 3 (Or.inl rfl) (Or.inr (by decide))⟩

/-- C10, as stated, fails: `Set(1, 1, 5, 5, 5)` on the all-zero store, with `p = i = j = 1`
in range, changes the diagonal cell `(1, 1)` from `(0, 0, 0)` to `(5, 5, 5)`. -/
theorem Set_diagonal_counterexample :
    InRange 4 1 ∧
      (defaultInit 4).read 1 1 = some (Vec3Fixed.mk 0 0 0) ∧
      ((defaultInit 4).Set 1 1 5 5 5).bind (fun s' => s'.read 1 1) =
        some (Vec3Fixed.mk 5 5 5) := by
  decide

/-- C10, amended: for every store, every index `p` in `[0, MAXPLAYERS)` and every call
`Set(i, j, x, y, z)` with `i`, `j` in `[0, MAXPLAYERS)` and `(i, j) ≠ (p, p)`, the call
returns and the diagonal cell `(p, p)` is unchanged by it. -/
theorem Set_elsewhere_keeps_diagonal (s : ServerUnlagged MAXPLAYERS) (p i j : Int)
    (x y z : fixed_t) (_hp : InRange MAXPLAYERS p)
    (hi : InRange MAXPLAYERS i) (hj : InRange MAXPLAYERS j) (hne : i ≠ p ∨ j ≠ p) :
    ∃ s', s.Set i j x y z = some s' ∧ s'.read p p = s.read p p := by
  obtain ⟨s', h, -, hframe⟩ := assign_spec s (Vec3Fixed.mk x y z) hi hj
  refine ⟨s', h, hframe p p ?_⟩
  rcases hne with h1 | h1
  · exact Or.inl (fun e => h1 e.symm)
  · exact Or.inr (fun e => h1 e.symm)

theorem Set_elsewhere_keeps_diagonal_witness :
    InRange 4 1 ∧ InRange 4 1 ∧ InRange 4 2 ∧ ((1 : Int) ≠ 1 ∨ (2 : Int) ≠ 1) ∧
      ∃ s', ((defaultInit 4).write 1 1 (Vec3Fixed.mk 4 4 4)).Set 1 2 5 5 5 = some s' ∧
        s'.read 1 1 = ((defaultInit 4).write 1 1 (Vec3Fixed.mk 4 4 4)).read 1 1 :=
  ⟨by decide, by decide, by decide, by decide,
    Set_elsewhere_keeps_diagonal _ 1 1 2 5 5 5 (by decide) (by decide) (by decide)
      (by decide)⟩

theorem write_zero_defaultInit (r c : Fin MAXPLAYERS) :
    (defaultInit MAXPLAYERS).write r c (Vec3Fixed.mk 0 0 0) = defaultInit MAXPLAYERS := by
  apply ext_cell
  intro a b
  rw [cell_write, cell_defaultInit]
  split_ifs <;> rfl

/-- C11 (zero-sentinel ambiguity): for all indices `i`, `j` in `[0, MAXPLAYERS)`, writing the
origin with `Set(i, j, 0, 0, 0)` or with `SetSelf(i, 0, 0, 0)` into a freshly reset store
returns a store equal to the freshly reset store, so every read of the written store gives
what the same read of the reset store gives. -/
theorem origin_write_eq_reset (s : ServerUnlagged MAXPLAYERS) (i j : Int)
    (hi : InRange MAXPLAYERS i) (hj : InRange MAXPLAYERS j) :
    ∃ s0 s1 s2, s.Clear = some s0 ∧ s0.Set i j 0 0 0 = some s1 ∧
      s0.SetSelf i 0 0 0 = some s2 ∧ s1 = s0 ∧ s2 = s0 ∧
      ∀ a b : Int, s1.read a b = s0.read a b ∧ s2.read a b = s0.read a b := by
  obtain ⟨r, c, -, -, h1⟩ :=
    assign_of_inRange (defaultInit MAXPLAYERS) (Vec3Fixed.mk 0 0 0) hi hj
  obtain ⟨r2, c2, -, -, h2⟩ :=
    assign_of_inRange (defaultInit MAXPLAYERS) (Vec3Fixed.mk 0 0 0) hi hi
  rw [write_zero_defaultInit] at h1 h2
  exact ⟨defaultInit MAXPLAYERS, defaultInit MAXPLAYERS, defaultInit MAXPLAYERS,
    Clear_eq s, h1, h2, rfl, rfl, fun _ _ => ⟨rfl, rfl⟩⟩

theorem origin_write_eq_reset_witness :
    InRange 4 1 ∧ InRange 4 2 ∧
      ∃ s0 s1 s2, ((defaultInit 4).write 1 2 (Vec3Fixed.mk 5 6 7)).Clear = some s0 ∧
        s0.Set 1 2 0 0 0 = some s1 ∧ s0.SetSelf 1 0 0 0 = some s2 ∧ s1 = s0 ∧ s2 = s0 ∧
        ∀ a b : Int, s1.read a b = s0.read a b ∧ s2.read a b = s0.read a b :=
  ⟨by decide, by decide, origin_write_eq_reset _ 1 2 (by decide) (by decide)⟩

end ServerUnlagged

/-! ## `String`: arithmetic and buffer access -/

theorem toInt32_of_lt {n : Nat} (h : n < 2 ^ 31) : toInt32 (n : Int) = n := by
  unfold toInt32
  omega

namespace String

theorem length_eq (s : String) (h : s.str.length < 2 ^ 31) : s.length = s.str.length := by
  unfold length
  exact toInt32_of_lt h

theorem charsAt_natCast (s : String) (k : Nat) (h : k < s.str.length) :
    s.charsAt (k : Int) = s.str[k]? := by
  unfold charsAt
  have h0 : (0 : Int) ≤ (k : Int) := by omega
  simp only [h0, if_true, Int.toNat_ofNat]
  rw [List.getElem?_append_left h]

/-! ## `String::indexOf` -/

/-- The loop of `indexOf` entered at `i` with the remaining `n` characters to scan: it
returns the first position from `i` on that holds `c`, or `NO_INDEX` when there is none. -/
theorem indexOfLoop_spec (s : String) (c : char) (hlen : s.str.length < 2 ^ 31) :
    ∀ (n i : Nat), i + n = s.str.length →
      (∃ m : Nat, i ≤ m ∧ s.str[m]? = some c ∧
        (∀ k : Nat, i ≤ k → k < m → s.str[k]? ≠ some c) ∧
        indexOfLoop s c n (i : Int) = some (m : Int)) ∨
      ((∀ k : Nat, i ≤ k → s.str[k]? ≠ some c) ∧
        indexOfLoop s c n (i : Int) = some NO_INDEX) := by
  intro n
  induction n with
  | zero =>
    intro i hi
    right
    refine ⟨?_, rfl⟩
    intro k hk
    have : s.str[k]? = none := List.getElem?_eq_none (by omega)
    simp [this]
  | succ n ih =>
    intro i hi
    have hlt : i < s.str.length := by omega
    have hcond : (i : Int) < s.length := by rw [length_eq s hlen]; omega
    have hch : s.charsAt (i : Int) = some (s.str[i]) := by
      rw [charsAt_natCast s i hlt, List.getElem?_eq_getElem hlt]
    by_cases hc : s.str[i] = c
    · left
      refine ⟨i, Nat.le_refl _, ?_, ?_, ?_⟩
      · rw [List.getElem?_eq_getElem hlt, hc]
      · intro k h1 h2; omega
      · simp [indexOfLoop, hcond, hch, hc]
    · have hstep : indexOfLoop s c (n + 1) (i : Int) = indexOfLoop s c n ((i + 1 : Nat) : Int) := by
        simp [indexOfLoop, hcond, hch, hc]
      have hi_ne : s.str[i]? ≠ some c := by
        rw [List.getElem?_eq_getElem hlt]
        intro h; exact hc (Option.some.inj h)
      rcases ih (i + 1) (by omega) with ⟨m, hm, hmc, hbefore, hres⟩ | ⟨hnone, hres⟩
      · left
        refine ⟨m, by omega, hmc, ?_, by rw [hstep, hres]⟩
        intro k h1 h2
        by_cases hk : k = i
        · rw [hk]; exact hi_ne
        · exact hbefore k (by omega) h2
      · right
        refine ⟨?_, by rw [hstep, hres]⟩
        intro k h1
        by_cases hk : k = i
        · rw [hk]; exact hi_ne
        · exact hnone k (by omega)

theorem mem_iff_getElem?_some (l : List char) (c : char) :
    c ∈ l ↔ ∃ k : Nat, l[k]? = some c := List.mem_iff_getElem?

/-- The string of `2 ^ 31` characters `'b'` followed by one `'a'`: its `length()` is negative. -/
theorem length_replicate_append (n : Nat) (b a : char) :
    (String.mk (List.replicate n b ++ [a])).length = toInt32 ((n : Int) + 1) := by
  simp [length]

theorem toInt32_two_pow_31_succ : toInt32 (((2 ^ 31 : Nat) : Int) + 1) = -(2 ^ 31) + 1 := by
  norm_num [toInt32]

theorem length_huge :
    (String.mk (List.replicate (2 ^ 31) 'b' ++ ['a'])).length = -(2 ^ 31) + 1 := by
  rw [length_replicate_append, toInt32_two_pow_31_succ]

theorem indexOf_of_length_nonpos (s : String) (c : char) (h : s.length ≤ 0) :
    s.indexOf c = some NO_INDEX := by
  have h0 : s.length.toNat = 0 := by omega
  rw [indexOf, h0]
  rfl

/-- C12, as stated, fails: in the string of `2 ^ 31` characters `'b'` followed by one `'a'`
the character `'a'` occurs (at index `2 ^ 31`, which no `int` holds), yet `indexOf('a')`
returns `NO_INDEX`, because `length()` has wrapped to a negative `int32_t`. -/
theorem indexOf_huge_counterexample :
    'a' ∈ (String.mk (List.replicate (2 ^ 31) 'b' ++ ['a'])).str ∧
      (String.mk (List.replicate (2 ^ 31) 'b' ++ ['a'])).indexOf 'a' = some NO_INDEX := by
  constructor
  · exact List.mem_append_right _ (List.mem_singleton.mpr rfl)
  · apply indexOf_of_length_nonpos
    rw [length_huge]
    norm_num

/-- C12, amended: for every `String` `s` of fewer than `2 ^ 31` characters and every `c`,
`indexOf(c)` returns; the result is `NO_INDEX` (-1) if and only if `c` does not occur in
`s`, and otherwise it is the smallest index `i` in `[0, length)` with `s[i] == c`. -/
theorem indexOf_first_index (s : String) (c : char) (hlen : s.str.length < 2 ^ 31) :
    ∃ r : Int, s.indexOf c = some r ∧ (r = NO_INDEX ↔ c ∉ s.str) ∧
      (c ∈ s.str → 0 ≤ r ∧ r < s.str.length ∧ s.str[r.toNat]? = some c ∧
        ∀ k : Nat, (k : Int) < r → s.str[k]? ≠ some c) := by
  have hfuel : s.length.toNat = s.str.length := by rw [length_eq s hlen]; simp
  have h0 : ((0 : Nat) : Int) = 0 := rfl
  rcases indexOfLoop_spec s c hlen s.str.length 0 (by omega) with
    ⟨m, -, hmc, hbefore, hres⟩ | ⟨hnone, hres⟩
  · have hmem : c ∈ s.str := (mem_iff_getElem?_some _ _).mpr ⟨m, hmc⟩
    have hm : m < s.str.length := by
      by_contra hge
      rw [List.getElem?_eq_none (by omega)] at hmc
      cases hmc
    refine ⟨(m : Int), by rw [indexOf, hfuel, ← h0, hres], ?_, ?_⟩
    · constructor
      · intro h; unfold NO_INDEX at h; omega
      · intro h; exact absurd hmem h
    · intro _
      refine ⟨by omega, by omega, by simpa using hmc, ?_⟩
      intro k hk
      exact hbefore k (Nat.zero_le _) (by omega)
  · have hnot : c ∉ s.str := by
      intro hmem
      obtain ⟨k, hk⟩ := (mem_iff_getElem?_some _ _).mp hmem
      exact hnone k (Nat.zero_le _) hk
    refine ⟨NO_INDEX, by rw [indexOf, hfuel, ← h0, hres], ?_, ?_⟩
    · exact ⟨fun _ => hnot, fun _ => rfl⟩
    · intro h; exact absurd h hnot

theorem indexOf_first_index_witness :
    (String.mk ['a', 'b', 'c', 'b']).str.length < 2 ^ 31 ∧
      ∃ r : Int, (String.mk ['a', 'b', 'c', 'b']).indexOf 'b' = some r ∧
        (r = NO_INDEX ↔ 'b' ∉ (String.mk ['a', 'b', 'c', 'b']).str) ∧
        ('b' ∈ (String.mk ['a', 'b', 'c', 'b']).str → 0 ≤ r ∧
          r < (String.mk ['a', 'b', 'c', 'b']).str.length ∧
          (String.mk ['a', 'b', 'c', 'b']).str[r.toNat]? = some 'b' ∧
          ∀ k : Nat, (k : Int) < r → (String.mk ['a', 'b', 'c', 'b']).str[k]? ≠ some 'b') :=
  ⟨by decide, indexOf_first_index _ 'b' (by decide)⟩

/-! ## `String::lastIndexOf` -/

/-- The loop of `lastIndexOf` entered at `n - 1` with the first `n` characters to scan: it
returns the last position below `n` that holds `c`, or `NO_INDEX` when there is none. -/
theorem lastIndexOfLoop_spec (s : String) (c : char) :
    ∀ n : Nat, n ≤ s.str.length →
      (∃ m : Nat, m < n ∧ s.str[m]? = some c ∧
        (∀ k : Nat, m < k → k < n → s.str[k]? ≠ some c) ∧
        lastIndexOfLoop s c n ((n : Int) - 1) = some (m : Int)) ∨
      ((∀ k : Nat, k < n → s.str[k]? ≠ some c) ∧
        lastIndexOfLoop s c n ((n : Int) - 1) = some NO_INDEX) := by
  intro n
  induction n with
  | zero =>
    intro _
    right
    exact ⟨fun k hk => by omega, rfl⟩
  | succ n ih =>
    intro hn
    have hlt : n < s.str.length := by omega
    have hidx : (((n + 1 : Nat) : Int) - 1) = (n : Int) := by omega
    have hcond : (0 : Int) ≤ (n : Int) := by omega
    have hch : s.charsAt (n : Int) = some (s.str[n]) := by
      rw [charsAt_natCast s n hlt, List.getElem?_eq_getElem hlt]
    rw [hidx]
    by_cases hc : s.str[n] = c
    · left
      refine ⟨n, by omega, ?_, ?_, ?_⟩
      · rw [List.getElem?_eq_getElem hlt, hc]
      · intro k h1 h2; omega
      · simp [lastIndexOfLoop, hch, hc]
    · have hstep : lastIndexOfLoop s c (n + 1) (n : Int) =
          lastIndexOfLoop s c n ((n : Int) - 1) := by
        simp [lastIndexOfLoop, hch, hc]
      have hn_ne : s.str[n]? ≠ some c := by
        rw [List.getElem?_eq_getElem hlt]
        intro h; exact hc (Option.some.inj h)
      rcases ih (by omega) with ⟨m, hm, hmc, hafter, hres⟩ | ⟨hnone, hres⟩
      · left
        refine ⟨m, by omega, hmc, ?_, by rw [hstep, hres]⟩
        intro k h1 h2
        by_cases hk : k = n
        · rw [hk]; exact hn_ne
        · exact hafter k h1 (by omega)
      · right
        refine ⟨?_, by rw [hstep, hres]⟩
        intro k h1
        by_cases hk : k = n
        · rw [hk]; exact hn_ne
        · exact hnone k (by omega)

theorem lastIndexOf_of_length_nonpos (s : String) (c : char) (h : s.length ≤ 0)
    (h32 : IsInt32 (s.length - 1)) : s.lastIndexOf c = some NO_INDEX := by
  have h0 : s.length.toNat = 0 := by omega
  rw [lastIndexOf, if_pos h32, h0]
  rfl

/-- C13, as stated, fails: in the string of `2 ^ 31` characters `'b'` followed by one `'a'`
the character `'a'` occurs (at index `2 ^ 31`, which no `int` holds), yet
`lastIndexOf('a')` returns `NO_INDEX`, because `length()` has wrapped to a negative
`int32_t`. -/
theorem lastIndexOf_huge_counterexample :
    'a' ∈ (String.mk (List.replicate (2 ^ 31) 'b' ++ ['a'])).str ∧
      (String.mk (List.replicate (2 ^ 31) 'b' ++ ['a'])).lastIndexOf 'a' = some NO_INDEX := by
  constructor
  · exact List.mem_append_right _ (List.mem_singleton.mpr rfl)
  · apply lastIndexOf_of_length_nonpos
    · rw [length_huge]; norm_num
    · rw [length_huge]; unfold IsInt32; norm_num

/-- C13, amended: for every `String` `s` of fewer than `2 ^ 31` characters and every `c`,
`lastIndexOf(c)` returns; the result is `NO_INDEX` (-1) if and only if `c` does not occur
in `s` (so always for the empty string), and otherwise it is the largest index `i` in
`[0, length)` with `s[i] == c`. -/
theorem lastIndexOf_last_index (s : String) (c : char) (hlen : s.str.length < 2 ^ 31) :
    ∃ r : Int, s.lastIndexOf c = some r ∧ (r = NO_INDEX ↔ c ∉ s.str) ∧
      (s.str = [] → r = NO_INDEX) ∧
      (c ∈ s.str → 0 ≤ r ∧ r < s.str.length ∧ s.str[r.toNat]? = some c ∧
        ∀ k : Nat, r < (k : Int) → k < s.str.length → s.str[k]? ≠ some c) := by
  have hl := length_eq s hlen
  have hfuel : s.length.toNat = s.str.length := by rw [hl]; simp
  have h32 : IsInt32 (s.length - 1) := by
    rw [hl]; unfold IsInt32; omega
  have hrun : s.lastIndexOf c =
      lastIndexOfLoop s c s.str.length ((s.str.length : Int) - 1) := by
    rw [lastIndexOf, if_pos h32, hfuel, hl]
  rcases lastIndexOfLoop_spec s c s.str.length (Nat.le_refl _) with
    ⟨m, hm, hmc, hafter, hres⟩ | ⟨hnone, hres⟩
  · have hmem : c ∈ s.str := (mem_iff_getElem?_some _ _).mpr ⟨m, hmc⟩
    refine ⟨(m : Int), by rw [hrun, hres], ?_, ?_, ?_⟩
    · constructor
      · intro h; unfold NO_INDEX at h; omega
      · intro h; exact absurd hmem h
    · intro hnil
      rw [hnil] at hmem
      cases hmem
    · intro _
      refine ⟨by omega, by omega, by simpa using hmc, ?_⟩
      intro k hk hk2
      exact hafter k (by omega) hk2
  · have hnot : c ∉ s.str := by
      intro hmem
      obtain ⟨k, hk⟩ := (mem_iff_getElem?_some _ _).mp hmem
      have hklt : k < s.str.length := by
        by_contra hge
        rw [List.getElem?_eq_none (by omega)] at hk
        cases hk
      exact hnone k hklt hk
    refine ⟨NO_INDEX, by rw [hrun, hres], ?_, fun _ => rfl, ?_⟩
    · exact ⟨fun _ => hnot, fun _ => rfl⟩
    · intro h; exact absurd h hnot

theorem lastIndexOf_last_index_witness :
    (String.mk ['a', 'b', 'c', 'b']).str.length < 2 ^ 31 ∧
      ∃ r : Int, (String.mk ['a', 'b', 'c', 'b']).lastIndexOf 'b' = some r ∧
        (r = NO_INDEX ↔ 'b' ∉ (String.mk ['a', 'b', 'c', 'b']).str) ∧
        ((String.mk ['a', 'b', 'c', 'b']).str = [] → r = NO_INDEX) ∧
        ('b' ∈ (String.mk ['a', 'b', 'c', 'b']).str → 0 ≤ r ∧
          r < (String.mk ['a', 'b', 'c', 'b']).str.length ∧
          (String.mk ['a', 'b', 'c', 'b']).str[r.toNat]? = some 'b' ∧
          ∀ k : Nat, r < (k : Int) → k < (String.mk ['a', 'b', 'c', 'b']).str.length →
            (String.mk ['a', 'b', 'c', 'b']).str[k]? ≠ some 'b') :=
  ⟨by decide, lastIndexOf_last_index _ 'b' (by decide)⟩

/-! ## `String::substring`, `substringTo`, `substringFrom` -/

theorem toInt32_le (n : Nat) : toInt32 (n : Int) ≤ (n : Int) := by
  unfold toInt32
  omega

theorem length_le_size (s : String) : s.length ≤ (s.str.length : Int) := toInt32_le _

/-- With `0 ≤ startIndex < endIndex` and `endIndex` an `int32_t`, `substring` is the library
call `str.substr(startIndex, endIndex - startIndex)`. -/
theorem substring_eq_substr (s : String) (startIndex endIndex : Int)
    (h0 : 0 ≤ startIndex) (hlt : startIndex < endIndex) (he : endIndex < 2 ^ 31) :
    s.substring startIndex endIndex =
      (substr s.str startIndex.toNat (endIndex - startIndex).toNat).map String.mk := by
  have h32 : IsInt32 (endIndex - startIndex) := by unfold IsInt32; omega
  have hs : toSizeT startIndex = startIndex.toNat := by unfold toSizeT; omega
  have hc : toSizeT (endIndex - startIndex) = (endIndex - startIndex).toNat := by
    unfold toSizeT; omega
  rw [substring, if_pos hlt, if_pos h32, hs, hc]

/-- C14 (`substring` is the half-open range): for every `String` `s` and `int32_t` indices
with `0 <= startIndex < endIndex <= length` (the length taken as the number of characters or
as `length()`), `substring(startIndex, endIndex)` returns a string of
`endIndex - startIndex` characters whose `k`-th character is `s[startIndex + k]`; and for
`startIndex >= endIndex` it returns the empty string. -/
theorem substring_half_open_range (s : String) (startIndex endIndex : Int)
    (_hs32 : IsInt32 startIndex) (he32 : IsInt32 endIndex) :
    (0 ≤ startIndex → startIndex < endIndex →
      (endIndex ≤ (s.str.length : Int) ∨ endIndex ≤ s.length) →
      ∃ r : String, s.substring startIndex endIndex = some r ∧
        (r.str.length : Int) = endIndex - startIndex ∧
        r.str = (s.str.drop startIndex.toNat).take (endIndex - startIndex).toNat ∧
        ∀ k : Nat, (k : Int) < endIndex - startIndex →
          r.str[k]? = s.str[startIndex.toNat + k]? ∧ r.str[k]?.isSome) ∧
    (endIndex ≤ startIndex → s.substring startIndex endIndex = some (String.mk [])) := by
  constructor
  · intro h0 hlt hend
    have hend2 : endIndex ≤ (s.str.length : Int) := by
      rcases hend with h | h
      · exact h
      · exact le_trans h (length_le_size s)
    have hpos : ¬ startIndex.toNat > s.str.length := by omega
    refine ⟨String.mk ((s.str.drop startIndex.toNat).take (endIndex - startIndex).toNat),
      ?_, ?_, rfl, ?_⟩
    · rw [substring_eq_substr s _ _ h0 hlt he32.2, substr, if_neg hpos]
      rfl
    · simp only [List.length_take, List.length_drop]
      omega
    · intro k hk
      have hk2 : k < (endIndex - startIndex).toNat := by omega
      have hin : startIndex.toNat + k < s.str.length := by omega
      simp only [List.getElem?_take_of_lt hk2, List.getElem?_drop]
      exact ⟨trivial, by rw [List.getElem?_eq_getElem hin]; rfl⟩
  · intro hge
    have hnot : ¬ startIndex < endIndex := by omega
    rw [substring, if_neg hnot]

theorem substring_half_open_range_witness :
    IsInt32 1 ∧ IsInt32 3 ∧
      ∃ r : String, (String.mk ['a', 'b', 'c', 'd']).substring 1 3 = some r ∧
        (r.str.length : Int) = 3 - 1 ∧
        r.str = ((String.mk ['a', 'b', 'c', 'd']).str.drop (1 : Int).toNat).take
          ((3 : Int) - 1).toNat ∧
        ∀ k : Nat, (k : Int) < 3 - 1 →
          r.str[k]? = (String.mk ['a', 'b', 'c', 'd']).str[(1 : Int).toNat + k]? ∧
            r.str[k]?.isSome :=
  ⟨by decide, by decide,
    (substring_half_open_range (String.mk ['a', 'b', 'c', 'd']) 1 3 (by decide)
      (by decide)).1 (by decide) (by decide) (Or.inl (by decide))⟩

/-- C15 fails on the code: for `"abcd"`, `substringTo(2)` returns `"ab"`, but the
out-of-range call `substringTo(10)` returns the whole string `"abcd"`, not the empty
string: `str.substr(0, 10)` clamps the count to the characters there are. -/
theorem substringTo_out_of_range_returns_whole :
    (String.mk ['a', 'b', 'c', 'd']).substringTo 2 = some (String.mk ['a', 'b']) ∧
      ((10 : Int) > (String.mk ['a', 'b', 'c', 'd']).str.length ∧
        (10 : Int) > (String.mk ['a', 'b', 'c', 'd']).length) ∧
      (String.mk ['a', 'b', 'c', 'd']).substringTo 10 =
        some (String.mk ['a', 'b', 'c', 'd']) ∧
      String.mk ['a', 'b', 'c', 'd'] ≠ String.mk [] := by
  decide

theorem length_cons_replicate (n : Nat) (a b : char) :
    (String.mk (a :: List.replicate n b)).length = toInt32 ((n : Int) + 1) := by
  simp [length]

theorem toInt32_two_pow_32_add_5 : toInt32 (((2 ^ 32 + 4 : Nat) : Int) + 1) = 5 := by
  norm_num [toInt32]

/-- When `length()` is a positive `m`, `substringFrom(0)` is the first `m` characters. -/
theorem substringFrom_zero_of_length (s : String) (m : Nat) (h : s.length = (m : Int))
    (hpos : 0 < m) (hm : m < 2 ^ 31) :
    s.substringFrom 0 = some (String.mk (s.str.take m)) := by
  have hlt : (0 : Int) < (m : Int) := by omega
  have he : (m : Int) < 2 ^ 31 := by omega
  rw [substringFrom, h, substring_eq_substr s 0 m (le_refl _) hlt he]
  simp [substr]

theorem size_cons_replicate (n : Nat) (a b : char) :
    (String.mk (a :: List.replicate n b)).str.length = n + 1 := by
  simp

/-- When `length()` has wrapped to a positive `m` below the number of characters,
`substringFrom(0)` returns at most `m` characters and not the suffix from index `0`. -/
theorem substringFrom_zero_truncated (s : String) (m : Nat) (h : s.length = (m : Int))
    (hpos : 0 < m) (hm : m < 2 ^ 31) (hbig : m < s.str.length) :
    ∃ r : String, s.substringFrom 0 = some r ∧ r.str.length ≤ m ∧ r.str ≠ s.str.drop 0 := by
  refine ⟨String.mk (s.str.take m), substringFrom_zero_of_length s m h hpos hm,
    List.length_take_le _ _, ?_⟩
  intro heq
  have h1 := congrArg List.length heq
  simp only [List.drop_zero, List.length_take] at h1
  omega

/-- C16, as stated, fails: the string of one `'a'` followed by `2 ^ 32 + 4` characters `'b'`
has `2 ^ 32 + 5` characters and `length()` wraps to `5`; index `0` is below both, yet
`substringFrom(0)` returns at most five characters, not the suffix starting at index `0`
(the whole string). -/
theorem substringFrom_huge_counterexample :
    (String.mk ('a' :: List.replicate (2 ^ 32 + 4) 'b')).str.length = 2 ^ 32 + 4 + 1 ∧
      (String.mk ('a' :: List.replicate (2 ^ 32 + 4) 'b')).length = 5 ∧
      ∃ r : String,
        (String.mk ('a' :: List.replicate (2 ^ 32 + 4) 'b')).substringFrom 0 = some r ∧
        r.str.length ≤ 5 ∧
        r.str ≠ (String.mk ('a' :: List.replicate (2 ^ 32 + 4) 'b')).str.drop 0 :=
  ⟨size_cons_replicate _ _ _,
    (length_cons_replicate _ _ _).trans toInt32_two_pow_32_add_5,
    substringFrom_zero_truncated _ 5
      ((length_cons_replicate _ _ _).trans toInt32_two_pow_32_add_5)
      (by norm_num) (by norm_num)
      (by rw [size_cons_replicate]; norm_num)⟩

/-- C16, amended: for every `String` `s` of fewer than `2 ^ 31` characters and every
non-negative index, `substringFrom(index)` returns: for `index < length` the suffix of `s`
starting at `index` (`length - index` characters, the `k`-th being `s[index + k]`), and for
`index >= length` the empty string. -/
theorem substringFrom_suffix (s : String) (index : Int) (hlen : s.str.length < 2 ^ 31)
    (h0 : 0 ≤ index) :
    (index < (s.str.length : Int) →
      ∃ r : String, s.substringFrom index = some r ∧
        r.str = s.str.drop index.toNat ∧
        (r.str.length : Int) = (s.str.length : Int) - index ∧
        ∀ k : Nat, (k : Int) < (s.str.length : Int) - index →
          r.str[k]? = s.str[index.toNat + k]? ∧ r.str[k]?.isSome) ∧
    ((s.str.length : Int) ≤ index → s.substringFrom index = some (String.mk [])) := by
  have hl := length_eq s hlen
  constructor
  · intro hlt
    have hpos : ¬ index.toNat > s.str.length := by omega
    have htake : (s.str.drop index.toNat).take ((s.str.length : Int) - index).toNat =
        s.str.drop index.toNat := by
      apply List.take_of_length_le
      simp only [List.length_drop]
      omega
    refine ⟨String.mk (s.str.drop index.toNat), ?_, rfl, ?_, ?_⟩
    · rw [substringFrom, hl, substring_eq_substr s _ _ h0 hlt (by omega), substr,
        if_neg hpos, htake]
      rfl
    · simp only [List.length_drop]
      omega
    · intro k hk
      have hin : index.toNat + k < s.str.length := by omega
      simp only [List.getElem?_drop]
      exact ⟨trivial, by rw [List.getElem?_eq_getElem hin]; rfl⟩
  · intro hge
    have hnot : ¬ index < s.length := by rw [hl]; omega
    rw [substringFrom, substring, if_neg hnot]

theorem substringFrom_suffix_witness :
    (String.mk ['a', 'b', 'c', 'd']).str.length < 2 ^ 31 ∧ (0 : Int) ≤ 1 ∧
      ∃ r : String, (String.mk ['a', 'b', 'c', 'd']).substringFrom 1 = some r ∧
        r.str = (String.mk ['a', 'b', 'c', 'd']).str.drop (1 : Int).toNat ∧
        (r.str.length : Int) = ((String.mk ['a', 'b', 'c', 'd']).str.length : Int) - 1 ∧
        ∀ k : Nat, (k : Int) < ((String.mk ['a', 'b', 'c', 'd']).str.length : Int) - 1 →
          r.str[k]? = (String.mk ['a', 'b', 'c', 'd']).str[(1 : Int).toNat + k]? ∧
            r.str[k]?.isSome :=
  ⟨by decide, by decide,
    (substringFrom_suffix (String.mk ['a', 'b', 'c', 'd']) 1 (by decide) (by decide)).1
      (by decide)⟩

end String

/-! ## `String::endsWith` -/

/-- The call `std::equal` on a first sequence no longer than the second stays within the
second sequence and tells whether the first is a prefix of the second. -/
theorem stdEqual_spec : ∀ (l1 l2 : List char), l1.length ≤ l2.length →
    ∃ b : Bool, stdEqual l1 l2 = some b ∧ (b = true ↔ l1 <+: l2)
  | [], l2, _ => ⟨true, rfl, by simp⟩
  | a :: l1, [], h => by simp at h
  | a :: l1, b :: l2, h => by
    have h2 : l1.length ≤ l2.length := by simpa using h
    obtain ⟨r, hr, hiff⟩ := stdEqual_spec l1 l2 h2
    by_cases hab : a = b
    · refine ⟨r, by simp [stdEqual, hab, hr], ?_⟩
      rw [hiff, List.cons_prefix_cons]
      simp [hab]
    · refine ⟨false, by simp [stdEqual, hab], ?_⟩
      rw [List.cons_prefix_cons]
      simp [hab]

namespace String

theorem mk_append (l1 l2 : List char) : String.mk (l1 ++ l2) = String.mk l1 + String.mk l2 :=
  rfl

theorem eq_add_iff (s ending : String) :
    (∃ p : String, s = p + ending) ↔ ending.str <:+ s.str := by
  constructor
  · rintro ⟨p, hp⟩
    exact ⟨p.str, by rw [hp]; rfl⟩
  · rintro ⟨t, ht⟩
    refine ⟨String.mk t, ?_⟩
    cases s
    simp only at ht
    rw [← ht]
    rfl

theorem endsWith_of_length_gt (s ending : String) (h : ending.length > s.length) :
    s.endsWith ending = some false := by
  rw [endsWith, if_pos h]

/-- C17, as stated, fails: the string of `2 ^ 31` characters `'b'` followed by one `'a'` is
`p + "a"` for `p` the `2 ^ 31` characters `'b'`, yet `endsWith("a")` returns `false`,
because `length()` has wrapped to a negative `int32_t` and the early return is taken. -/
theorem endsWith_huge_counterexample :
    String.mk (List.replicate (2 ^ 31) 'b' ++ ['a']) =
        String.mk (List.replicate (2 ^ 31) 'b') + String.mk ['a'] ∧
      (String.mk (List.replicate (2 ^ 31) 'b' ++ ['a'])).endsWith (String.mk ['a']) =
        some false := by
  refine ⟨mk_append _ _, endsWith_of_length_gt _ _ ?_⟩
  have h1 : (String.mk ['a']).length = 1 := by decide
  rw [length_huge, h1]
  norm_num

/-- C17, amended: for all `String`s `s` and `ending` of fewer than `2 ^ 31` characters each,
`endsWith(ending)` returns, and it is true if and only if there is a string `p` with
`s = p + ending`; in particular it is false whenever `ending` is longer than `s`, and true
for the empty `ending`. -/
theorem endsWith_iff_suffix (s ending : String) (hs : s.str.length < 2 ^ 31)
    (he : ending.str.length < 2 ^ 31) :
    ∃ b : Bool, s.endsWith ending = some b ∧
      (b = true ↔ ∃ p : String, s = p + ending) ∧
      (s.str.length < ending.str.length → b = false) ∧
      (ending.str = [] → b = true) := by
  have hls := length_eq s hs
  have hle := length_eq ending he
  by_cases hgt : ending.length > s.length
  · have hlong : s.str.length < ending.str.length := by rw [hls, hle] at hgt; omega
    have hno : ¬ ∃ p : String, s = p + ending := by
      rw [eq_add_iff]
      intro hsuf
      have := hsuf.length_le
      omega
    refine ⟨false, endsWith_of_length_gt s ending hgt, ?_, fun _ => rfl, ?_⟩
    · constructor
      · intro h; cases h
      · intro h; exact absurd h hno
    · intro hnil
      rw [hnil] at hlong
      simp at hlong
  · have hshort : ending.str.length ≤ s.str.length := by rw [hls, hle] at hgt; omega
    obtain ⟨b, hb, hiff⟩ := stdEqual_spec ending.str.reverse s.str.reverse
      (by simpa using hshort)
    refine ⟨b, by rw [endsWith, if_neg hgt, hb], ?_, ?_, ?_⟩
    · rw [hiff, List.reverse_prefix, eq_add_iff]
    · intro h; omega
    · intro hnil
      rw [hiff, hnil]
      simp

theorem endsWith_iff_suffix_witness :
    (String.mk ['a', 'b', 'c', 'd']).str.length < 2 ^ 31 ∧
      (String.mk ['c', 'd']).str.length < 2 ^ 31 ∧
      ∃ b : Bool, (String.mk ['a', 'b', 'c', 'd']).endsWith (String.mk ['c', 'd']) = some b ∧
        (b = true ↔ ∃ p : String, String.mk ['a', 'b', 'c', 'd'] = p + String.mk ['c', 'd']) ∧
        ((String.mk ['a', 'b', 'c', 'd']).str.length < (String.mk ['c', 'd']).str.length →
          b = false) ∧
        ((String.mk ['c', 'd']).str = [] → b = true) :=
  ⟨by decide, by decide, endsWith_iff_suffix _ _ (by decide) (by decide)⟩

/-! ## `String::remove` -/

theorem remove_result (s : String) (target : char) :
    (s.remove target).2.str = s.str.filter (fun ch => !(ch == target)) := by
  simp only [remove, stdRemove]
  exact List.take_left _ _

/-- C18 (`remove`): for every `String` `s` and every `target`, `remove(target)` returns
exactly the characters of `s` that differ from `target`, in their original order; the result
holds no occurrence of `target`, its length is the length of `s` minus the number of
occurrences of `target`, and `s` itself is unchanged. -/
theorem remove_keeps_exactly_the_others (s : String) (target : char) :
    (s.remove target).2.str = s.str.filter (fun ch => decide (ch ≠ target)) ∧
      target ∉ (s.remove target).2.str ∧
      (s.remove target).2.str.length = s.str.length - s.str.count target ∧
      (s.remove target).1 = s := by
  have hfun : (fun ch : char => !(ch == target)) = (fun ch => decide (ch ≠ target)) := by
    funext ch
    by_cases h : ch = target <;> simp [h]
  have hres := remove_result s target
  refine ⟨by rw [hres, hfun], ?_, ?_, rfl⟩
  · rw [hres]
    intro hmem
    have := (List.mem_filter.mp hmem).2
    simp at this
  · rw [hres]
    have hsplit := List.length_eq_countP_add_countP (fun ch : char => ch == target) s.str
    have hcount : s.str.count target = List.countP (fun ch : char => ch == target) s.str :=
      List.count_eq_countP target s.str
    have hfilter : (s.str.filter (fun ch => !(ch == target))).length =
        List.countP (fun ch : char => decide ¬ ((ch == target) = true)) s.str := by
      rw [List.countP_eq_length_filter]
      congr 1
      apply List.filter_congr
      intro ch _
      by_cases h : ch = target <;> simp [h]
    omega

end String

end Helion
